import Mathlib

/-!
Shallow embedding of the content store (`src/src/context/ContentContext.tsx`)
and of the table editing form (`TableForm`, kept in
`src/src/components/ContentCreator/ContentDisplays/TableDisplay.tsx`),
together with theorems settling the specification claims about them.
-/

namespace WinMix

/-- JSON-like values, the result of deserializing the persisted blob.
Numbers are modelled as rationals (enough to express negative and fractional
`order` values; the validator never computes with them). -/
inductive JsonValue where
  | null
  | bool (b : Bool)
  | num (q : ℚ)
  | str (s : String)
  | arr (elems : List JsonValue)
  | obj (fields : List (String × JsonValue))

/-- Property access `o[k]` on a JS object modelled as an association list. -/
def jsLookup (fields : List (String × JsonValue)) (k : String) : Option JsonValue :=
  (fields.find? (fun p => p.1 = k)).map (fun p => p.2)

/-- JS truthiness of a property access result: `undefined`, `null`, `false`,
`0` and the empty string are falsy, everything else is truthy. -/
def jsTruthy : Option JsonValue → Bool
  | none => false
  | some .null => false
  | some (.bool b) => b
  | some (.num q) => decide (q ≠ 0)
  | some (.str s) => decide (s ≠ "")
  | some (.arr _) => true
  | some (.obj _) => true

/-- The six known content kinds (`validTypes` in the source). -/
def validTypes : List String := ["text", "title", "table", "button", "card", "grid"]

/-- Structural validator for one deserialized element (`validateContent` in the
source): the value must be a truthy object, its `id` and `type` properties
truthy, its `order` property a number, and its `type` equal (JS strict
equality) to one of the six known kinds.  A JS array passes the typeof-object
test but has none of the properties, so it is rejected by the `id` check. -/
def validateContent (v : JsonValue) : Bool :=
  match v with
  | .obj fields =>
      jsTruthy (jsLookup fields "id") &&
      jsTruthy (jsLookup fields "type") &&
      (match jsLookup fields "order" with
       | some (.num _) => true
       | _ => false) &&
      (match jsLookup fields "type" with
       | some (.str s) => validTypes.contains s
       | _ => false)
  | .arr _ => false
  | _ => false

/-- Rehydration decision of the load effect in `ContentProvider`: a
deserialized blob is kept only when it is an array all of whose elements pass
`validateContent`; in every other case the store starts with the empty
collection. -/
def loadContents (v : JsonValue) : List JsonValue :=
  match v with
  | .arr elems => if elems.all validateContent then elems else []
  | _ => []

/-- One content item as the store keeps it.  The variant payload of the six
content kinds is abstracted into an association list of string fields;
`order` is an integer (every value the store itself writes is one) and the
ISO timestamp strings are abstracted into instants. -/
structure Content where
  id : String
  type : String
  order : Int
  createdAt : Nat
  updatedAt : Nat
  fields : List (String × String)
deriving DecidableEq

/-- JS object spread `{ ...item, ...patch }` restricted to the payload fields:
keys of the base keep their position, patched keys take the patch value, and
keys only in the patch are appended in patch order. -/
def mergeFields (base patch : List (String × String)) : List (String × String) :=
  base.map (fun p =>
    match patch.find? (fun q => q.1 = p.1) with
    | some q => (p.1, q.2)
    | none => p)
  ++ patch.filter (fun q => (base.find? (fun p => p.1 = q.1)).isNone)

/-- `addContent`: append a new item carrying a caller-supplied fresh id,
`order` equal to the current item count and both timestamps set to now. -/
def addContent (contents : List Content) (newId : String) (type : String)
    (fields : List (String × String)) (now : Nat) : List Content :=
  contents ++ [{ id := newId, type := type, order := (contents.length : Int),
                 createdAt := now, updatedAt := now, fields := fields }]

/-- `updateContent`: merge a patch of payload fields into the item whose id
matches and stamp its `updatedAt`; every other item is returned as is. -/
def updateContent (contents : List Content) (id : String)
    (patch : List (String × String)) (now : Nat) : List Content :=
  contents.map (fun item =>
    if item.id = id then
      { item with fields := mergeFields item.fields patch, updatedAt := now }
    else item)

/-- Renumbering pass of `deleteContent`, the arrow
`filtered.map((item, index) => ({ ...item, order: index }))`, written with an
explicit running index. -/
def renumberOrder (start : Nat) : List Content → List Content
  | [] => []
  | item :: rest =>
      { item with order := (start : Int) } :: renumberOrder (start + 1) rest

/-- `deleteContent`: drop every item with the given id, then renumber the
remaining items' `order` by position.  `updatedAt` is not touched. -/
def deleteContent (contents : List Content) (id : String) : List Content :=
  renumberOrder 0 (contents.filter (fun item => item.id ≠ id))

/-- Renumbering pass of `reorderContent`, the arrow
`items.map((item, index) => ({ ...item, order: index, updatedAt: now }))`. -/
def renumberAll (now : Nat) (start : Nat) : List Content → List Content
  | [] => []
  | item :: rest =>
      { item with order := (start : Int), updatedAt := now }
        :: renumberAll now (start + 1) rest

/-- Removal splice `items.splice(itemIndex, 1)` of `reorderContent`: the list
without its element at the index. -/
def spliceOut (contents : List Content) (itemIndex : Nat) : List Content :=
  contents.take itemIndex ++ contents.drop (itemIndex + 1)

/-- Clamp `Math.max(0, Math.min(newOrder, items.length))` of `reorderContent`,
as a position in the shortened list. -/
def clampTarget (newOrder : Int) (len : Nat) : Nat :=
  (max 0 (min newOrder (len : Int))).toNat

/-- Insertion splice `items.splice(targetOrder, 0, movedItem)` of
`reorderContent`. -/
def spliceIn (items : List Content) (targetOrder : Nat) (movedItem : Content) :
    List Content :=
  items.take targetOrder ++ movedItem :: items.drop targetOrder

/-- `reorderContent`: locate the item by id (no-op when absent), splice it
out, clamp the requested position into the shortened list, splice it back in
there, and renumber the whole list, stamping every item's `updatedAt`. -/
def reorderContent (contents : List Content) (id : String) (newOrder : Int)
    (now : Nat) : List Content :=
  match contents.findIdx? (fun item => item.id = id) with
  | none => contents
  | some itemIndex =>
    match contents[itemIndex]? with
    | none => contents
    | some movedItem =>
      renumberAll now 0
        (spliceIn (spliceOut contents itemIndex)
          (clampTarget newOrder (spliceOut contents itemIndex).length) movedItem)

/-- The provider's exposed value `[...contents].sort((a, b) => a.order - b.order)`:
a stable sort ascending by `order`. -/
def sortedSnapshot (contents : List Content) : List Content :=
  List.insertionSort (fun a b => a.order ≤ b.order) contents

/-- One store mutation, for stating the all-sequences order invariant. -/
inductive Op where
  | addOp (newId : String) (type : String) (fields : List (String × String)) (now : Nat)
  | deleteOp (id : String)
  | reorderOp (id : String) (newOrder : Int) (now : Nat)

/-- Apply one mutation to the store. -/
def applyOp (contents : List Content) : Op → List Content
  | .addOp newId type fields now => addContent contents newId type fields now
  | .deleteOp id => deleteContent contents id
  | .reorderOp id newOrder now => reorderContent contents id newOrder now

/-- Run a sequence of mutations starting from the initially empty store. -/
def runOps (ops : List Op) : List Content := ops.foldl applyOp []

/-- One column of the table form's working model: a synthetic identifier
decoupled from the human-editable header label. -/
structure Column where
  id : String
  header : String
deriving DecidableEq

/-- One data row of the working model: a JS record from column id to cell
text, modelled as an association list without duplicate keys. -/
abbrev Row := List (String × String)

/-- JS assignment `row[k] = v`: overwrite in place when the key exists,
append otherwise. -/
def rowSet (row : Row) (k v : String) : Row :=
  if row.any (fun p => p.1 = k) then
    row.map (fun p => if p.1 = k then (k, v) else p)
  else
    row ++ [(k, v)]

/-- JS read `row[k]`, `none` standing for `undefined`. -/
def rowGet (row : Row) (k : String) : Option String :=
  (row.find? (fun p => p.1 = k)).map (fun p => p.2)

/-- JS `delete row[k]`. -/
def rowDelete (row : Row) (k : String) : Row :=
  row.filter (fun p => p.1 ≠ k)

/-- The table form's working model (the `TableFormValues` of the source). -/
structure TableFormValues where
  title : String
  columns : List Column
  data : List Row
deriving DecidableEq

/-- `handleAddColumn`: append a fresh column with an empty header, then give
every existing row an empty-string cell under the new id. -/
def handleAddColumn (s : TableFormValues) (newColId : String) : TableFormValues :=
  { s with columns := s.columns ++ [{ id := newColId, header := "" }],
           data := s.data.map (fun row => rowSet row newColId "") }

/-- `handleRemoveColumn`: capture the id of the column at the index, remove
that column, then strip that id's key from every row.  An out-of-range index
leaves the state alone (the field-array remove is a no-op there). -/
def handleRemoveColumn (s : TableFormValues) (index : Nat) : TableFormValues :=
  match s.columns[index]? with
  | none => s
  | some col =>
      { s with columns := s.columns.eraseIdx index,
               data := s.data.map (fun row => rowDelete row col.id) }

/-- Condition of the `disabled` flag on the remove-column button. -/
def removeColumnDisabled (s : TableFormValues) : Bool :=
  s.columns.length ≤ 1

/-- The row object `handleAddRow` builds: one empty-string entry per current
column id, written in column order. -/
def buildNewRow (columns : List Column) : Row :=
  columns.foldl (fun row col => rowSet row col.id "") []

/-- `handleAddRow`: append a row holding an empty-string cell for every
current column. -/
def handleAddRow (s : TableFormValues) : TableFormValues :=
  { s with data := s.data ++ [buildNewRow s.columns] }

/-- The persisted table payload built by `onSubmit` (title, header strings,
header-keyed rows). -/
structure TableContent where
  title : String
  columns : List String
  data : List Row
deriving DecidableEq

/-- Row projection inside `onSubmit`:
`newRow[col.header] = row[col.id] || ""` for each column in order.  A missing
cell (and also an empty one) contributes the empty string. -/
def projectRow (columns : List Column) (row : Row) : Row :=
  columns.foldl
    (fun newRow col => rowSet newRow col.header ((rowGet row col.id).getD "")) []

/-- `onSubmit`: project the working model into the persisted shape — the
column list becomes the ordered list of header strings and every row is
rebuilt keyed by header label. -/
def onSubmitContent (values : TableFormValues) : TableContent :=
  { title := values.title,
    columns := values.columns.map Column.header,
    data := values.data.map (projectRow values.columns) }

/-- Projection of an item onto everything but `order`, used to state frame
conditions of the renumbering passes. -/
def stripOrder (c : Content) : String × String × Nat × Nat × List (String × String) :=
  (c.id, c.type, c.createdAt, c.updatedAt, c.fields)

/-- The `order` property of a deserialized element, when it is an object with
a numeric `order`. -/
def itemOrder (v : JsonValue) : Option ℚ :=
  match v with
  | .obj fields =>
      match jsLookup fields "order" with
      | some (.num q) => some q
      | _ => none
  | _ => none

/-- A deserialized element passing the structural validator while carrying
`order = -1`. -/
def goodItem : JsonValue :=
  .obj [("id", .str "x"), ("type", .str "text"), ("order", .num (-1))]

/-- A deserialized element failing the structural validator (unknown kind). -/
def badItem : JsonValue :=
  .obj [("id", .str "x"), ("type", .str "bogus"), ("order", .num 0)]

/-- Two deserialized elements sharing the duplicated `order` value `0`. -/
def dupItemA : JsonValue :=
  .obj [("id", .str "x"), ("type", .str "text"), ("order", .num 0)]

/-- Second element of the duplicated-`order` pair. -/
def dupItemB : JsonValue :=
  .obj [("id", .str "y"), ("type", .str "title"), ("order", .num 0)]

/-- Concrete store item used by witnesses and counterexamples. -/
def exA : Content :=
  { id := "a", type := "title", order := 0, createdAt := 1, updatedAt := 5,
    fields := [("title", "Welcome")] }

/-- Second concrete store item used by witnesses and counterexamples. -/
def exB : Content :=
  { id := "b", type := "text", order := 1, createdAt := 2, updatedAt := 6,
    fields := [("content", "Hello")] }

/-- Concrete table form state used by witnesses. -/
def exTF : TableFormValues :=
  { title := "T",
    columns := [{ id := "a", header := "Name" }, { id := "b", header := "Age" }],
    data := [[("a", "Alice"), ("b", "30")]] }

section RowLemmas

theorem rowGet_cons (p : String × String) (rest : Row) (k : String) :
    rowGet (p :: rest) k = if p.1 = k then some p.2 else rowGet rest k := by
  by_cases h : p.1 = k <;> simp [rowGet, List.find?_cons, h]

theorem rowGet_map_set (row : Row) (k' v k : String) :
    rowGet (row.map (fun p => if p.1 = k' then (k', v) else p)) k
      = if k = k' then (rowGet row k').map (fun _ => v) else rowGet row k := by
  induction row with
  | nil => by_cases h : k = k' <;> simp [rowGet, h]
  | cons p rest ih =>
    by_cases hpk' : p.1 = k'
    · by_cases hk : k = k'
      · subst hk
        simp [hpk', rowGet_cons, ih]
      · simp only [List.map_cons, if_pos hpk', rowGet_cons, ih, if_neg hk]
        have hp1 : ¬ p.1 = k := by
          intro h; exact hk (h ▸ hpk')
        have hk' : ¬ k' = k := fun h => hk h.symm
        simp [hp1, hk']
    · by_cases hk : k = k'
      · subst hk
        simp [hpk', rowGet_cons, ih]
      · simp [hpk', rowGet_cons, ih, hk]

theorem rowGet_rowSet (row : Row) (k' v k : String) :
    rowGet (rowSet row k' v) k = if k = k' then some v else rowGet row k := by
  unfold rowSet
  by_cases hany : row.any (fun p => p.1 = k') = true
  · rw [if_pos hany, rowGet_map_set]
    by_cases hk : k = k'
    · have hsome : (row.find? (fun p => decide (p.1 = k'))).isSome = true := by
        rw [List.find?_isSome]
        exact List.any_eq_true.mp hany
      rcases Option.isSome_iff_exists.mp hsome with ⟨w, hw⟩
      simp [hk, rowGet, hw]
    · simp [hk]
  · rw [if_neg hany]
    have hnone : row.find? (fun p => decide (p.1 = k')) = none := by
      rw [List.find?_eq_none]
      intro a ha hcontra
      rw [List.any_eq_true] at hany
      exact hany ⟨a, ha, hcontra⟩
    by_cases hk : k = k'
    · subst hk
      simp [rowGet, List.find?_append, hnone, List.find?_cons]
    · have hk' : ¬ k' = k := fun hcontra => hk hcontra.symm
      simp only [rowGet, List.find?_append, if_neg hk]
      cases hfind : row.find? (fun p => decide (p.1 = k)) with
      | none => simp [List.find?_cons, hk']
      | some w => simp

theorem rowDelete_cons (p : String × String) (rest : Row) (k : String) :
    rowDelete (p :: rest) k
      = if p.1 = k then rowDelete rest k else p :: rowDelete rest k := by
  simp only [rowDelete, List.filter_cons]
  by_cases hp : p.1 = k <;> simp [hp]

theorem rowGet_rowDelete_self (row : Row) (k : String) :
    rowGet (rowDelete row k) k = none := by
  induction row with
  | nil => rfl
  | cons p rest ih =>
    rw [rowDelete_cons]
    by_cases hp : p.1 = k
    · rw [if_pos hp]
      exact ih
    · rw [if_neg hp, rowGet_cons, if_neg hp]
      exact ih

theorem rowGet_rowDelete_other (row : Row) (k k' : String) (h : k' ≠ k) :
    rowGet (rowDelete row k) k' = rowGet row k' := by
  induction row with
  | nil => rfl
  | cons p rest ih =>
    rw [rowDelete_cons, rowGet_cons]
    by_cases hp : p.1 = k
    · have hp' : ¬ p.1 = k' := fun hcontra => h (hcontra.symm.trans hp)
      rw [if_pos hp, if_neg hp']
      exact ih
    · rw [if_neg hp, rowGet_cons]
      by_cases hpk' : p.1 = k' <;> simp [hpk', ih]

theorem rowGet_buildFold (cols : List Column) (init : Row) (k : String) :
    rowGet (cols.foldl (fun row col => rowSet row col.id "") init) k
      = if k ∈ cols.map Column.id then some "" else rowGet init k := by
  induction cols generalizing init with
  | nil => simp
  | cons c cs ih =>
    rw [List.foldl_cons, ih]
    by_cases hk : k ∈ cs.map Column.id
    · simp [hk]
    · by_cases hkc : k = c.id
      · simp [hk, hkc, rowGet_rowSet]
      · simp [hk, hkc, rowGet_rowSet]

theorem rowGet_projectFold_notMem (cols : List Column) (row : Row) (k : String) :
    ∀ init : Row, k ∉ cols.map Column.header →
      rowGet (cols.foldl
          (fun newRow col => rowSet newRow col.header ((rowGet row col.id).getD "")) init) k
        = rowGet init k := by
  induction cols with
  | nil => intro init _; rfl
  | cons c cs ih =>
    intro init hk
    rw [List.foldl_cons, ih _ (fun hmem => hk (by simp [hmem]))]
    rw [rowGet_rowSet, if_neg (fun h => hk (by simp [h]))]

theorem rowGet_projectFold_mem (cols : List Column) (row : Row) (col : Column) :
    ∀ init : Row, col ∈ cols → (cols.map Column.header).Nodup →
      rowGet (cols.foldl
          (fun newRow col => rowSet newRow col.header ((rowGet row col.id).getD "")) init)
          col.header
        = some ((rowGet row col.id).getD "") := by
  induction cols with
  | nil => intro init h _; exact absurd h (List.not_mem_nil _)
  | cons c cs ih =>
    intro init hmem hnodup
    rw [List.map_cons, List.nodup_cons] at hnodup
    rcases List.mem_cons.mp hmem with heq | hmem'
    · subst heq
      rw [List.foldl_cons, rowGet_projectFold_notMem cs row col.header _ hnodup.1,
        rowGet_rowSet, if_pos rfl]
    · rw [List.foldl_cons]
      exact ih _ hmem' hnodup.2

end RowLemmas

/-- C5: in the table form, `addColumn()` followed by `addRow()` appends a row
whose key set is exactly the current set of column synthetic ids, each value
the empty string; and `addColumn()` on the state with one column
`{id := "a", header := "Name"}` and one row `{a ↦ "Alice"}` extends that row
to `{a ↦ "Alice", b ↦ ""}`, `b` being the freshly generated column id. -/
theorem addColumn_addRow_row_matches_columns (s : TableFormValues) (b : String) :
    ((handleAddRow (handleAddColumn s b)).data
        = (handleAddColumn s b).data ++ [buildNewRow (handleAddColumn s b).columns])
    ∧ (∀ k : String,
        rowGet (buildNewRow (handleAddColumn s b).columns) k
          = if k ∈ ((handleAddColumn s b).columns).map Column.id then some "" else none)
    ∧ handleAddColumn
        { title := "T", columns := [{ id := "a", header := "Name" }],
          data := [[("a", "Alice")]] } "b"
      = { title := "T",
          columns := [{ id := "a", header := "Name" }, { id := "b", header := "" }],
          data := [[("a", "Alice"), ("b", "")]] } := by
  refine ⟨rfl, ?_, by decide⟩
  intro k
  rw [buildNewRow, rowGet_buildFold]
  rfl

/-- C6: `submit()` projects the working model into the persisted shape: the
column list becomes the ordered list of header strings, and (headers being
pairwise distinct) each row is rebuilt as a mapping from header label to the
cell value looked up via the synthetic id, defaulting to the empty string;
in particular title `"T"`, columns `[{id := "a", header := "Name"}]`, rows
`[{a ↦ "Bob"}]` yield `{title := "T", columns := ["Name"], data := [{Name ↦ "Bob"}]}`. -/
theorem onSubmit_projects_table (values : TableFormValues)
    (hnodup : (values.columns.map Column.header).Nodup) :
    (onSubmitContent values).title = values.title
    ∧ (onSubmitContent values).columns = values.columns.map Column.header
    ∧ (onSubmitContent values).data = values.data.map (projectRow values.columns)
    ∧ (∀ row ∈ values.data, ∀ col ∈ values.columns,
        rowGet (projectRow values.columns row) col.header
          = some ((rowGet row col.id).getD ""))
    ∧ onSubmitContent
        { title := "T", columns := [{ id := "a", header := "Name" }],
          data := [[("a", "Bob")]] }
      = { title := "T", columns := ["Name"], data := [[("Name", "Bob")]] } := by
  refine ⟨rfl, rfl, rfl, ?_, by decide⟩
  intro row _ col hcol
  exact rowGet_projectFold_mem values.columns row col [] hcol hnodup

/-- Witness for C6 at a concrete form state. -/
theorem onSubmit_projects_table_witness :
    onSubmitContent
        { title := "T", columns := [{ id := "a", header := "Name" }],
          data := [[("a", "Bob")]] }
      = { title := "T", columns := ["Name"], data := [[("Name", "Bob")]] } :=
  (onSubmit_projects_table
    { title := "T", columns := [{ id := "a", header := "Name" }],
      data := [[("a", "Bob")]] } (by decide)).2.2.2.2

/-- C7: `removeColumn(i)` removes the column at index `i` and strips exactly
that column's key from every existing row, leaving every row's other keys and
their values unchanged; the button is disabled when at most one column
remains, so the surviving column count stays at least one. -/
theorem removeColumn_strips_key (s : TableFormValues) (i : Nat) (col : Column)
    (hcol : s.columns[i]? = some col) :
    (handleRemoveColumn s i).columns = s.columns.eraseIdx i
    ∧ (handleRemoveColumn s i).data = s.data.map (fun row => rowDelete row col.id)
    ∧ (∀ row ∈ s.data, rowGet (rowDelete row col.id) col.id = none)
    ∧ (∀ row ∈ s.data, ∀ k : String, k ≠ col.id →
        rowGet (rowDelete row col.id) k = rowGet row k)
    ∧ (removeColumnDisabled s = false → 1 ≤ (handleRemoveColumn s i).columns.length) := by
  have hred : handleRemoveColumn s i
      = { s with columns := s.columns.eraseIdx i,
                 data := s.data.map (fun row => rowDelete row col.id) } := by
    unfold handleRemoveColumn
    rw [hcol]
  have hi : i < s.columns.length := by
    rcases List.getElem?_eq_some_iff.mp hcol with ⟨h, _⟩
    exact h
  refine ⟨by rw [hred], by rw [hred], ?_, ?_, ?_⟩
  · intro row _
    exact rowGet_rowDelete_self row col.id
  · intro row _ k hk
    exact rowGet_rowDelete_other row col.id k hk
  · intro hdis
    rw [hred]
    simp only [removeColumnDisabled, decide_eq_false_iff_not, not_le] at hdis
    simp only [List.length_eraseIdx, if_pos hi]
    omega

/-- Witness for C7 on a concrete two-column state. -/
theorem removeColumn_strips_key_witness :
    (handleRemoveColumn exTF 0).data
      = exTF.data.map (fun row => rowDelete row "a") :=
  (removeColumn_strips_key exTF 0 { id := "a", header := "Name" } (by decide)).2.1

/-- C10: with two columns sharing the header label `"H"`, submission binds
`"H"` to the value of the last such column only; the cell value of the
earlier column is absent from the persisted payload. -/
theorem duplicate_headers_last_wins :
    projectRow [{ id := "a", header := "H" }, { id := "b", header := "H" }]
        [("a", "v1"), ("b", "v2")] = [("H", "v2")]
    ∧ onSubmitContent
        { title := "T",
          columns := [{ id := "a", header := "H" }, { id := "b", header := "H" }],
          data := [[("a", "v1"), ("b", "v2")]] }
      = { title := "T", columns := ["H", "H"], data := [[("H", "v2")]] } :=
  ⟨by decide, by decide⟩

/-- C4: for every deserialized blob, a non-array value, or an array in which
any single element fails the structural validator, rehydrates to the empty
collection — never a salvage of just the valid elements — while an array
all of whose elements pass is loaded whole. -/
theorem loadContents_fail_closed (v : JsonValue) :
    ((∀ elems : List JsonValue, v ≠ JsonValue.arr elems) → loadContents v = [])
    ∧ (∀ elems : List JsonValue, v = JsonValue.arr elems →
        ((∃ x ∈ elems, validateContent x = false) → loadContents v = [])
        ∧ ((∀ x ∈ elems, validateContent x = true) → loadContents v = elems)) := by
  constructor
  · intro h
    cases v with
    | arr elems => exact absurd rfl (h elems)
    | null => rfl
    | bool b => rfl
    | num q => rfl
    | str s => rfl
    | obj fields => rfl
  · intro elems hv
    subst hv
    constructor
    · rintro ⟨x, hx, hbad⟩
      have hall : elems.all validateContent = false :=
        List.all_eq_false.mpr ⟨x, hx, by simp [hbad]⟩
      simp [loadContents, hall]
    · intro hgood
      have hall : elems.all validateContent = true := List.all_eq_true.mpr hgood
      simp [loadContents, hall]

/-- Witness for C4: one invalid element discards the whole array, and a fully
valid array is loaded whole. -/
theorem loadContents_fail_closed_witness :
    loadContents (.arr [badItem]) = [] ∧ loadContents (.arr [goodItem]) = [goodItem] :=
  ⟨((loadContents_fail_closed (.arr [badItem])).2 [badItem] rfl).1
      ⟨badItem, List.mem_singleton.mpr rfl, rfl⟩,
   ((loadContents_fail_closed (.arr [goodItem])).2 [goodItem] rfl).2
      (by intro x hx; rw [List.mem_singleton] at hx; subst hx; rfl)⟩

/-- C9: the structural validator accepts any numeric `order` whatsoever —
negative, fractional or duplicated across items — so a persisted array whose
`order` values are not a contiguous permutation of `[0, N)` (a single item
with `order = -1`, or two items both with `order = 0`) is rehydrated as-is;
the order invariant is not re-established. -/
theorem validator_accepts_any_order :
    (∀ q : ℚ, validateContent
        (.obj [("id", .str "x"), ("type", .str "text"), ("order", .num q)]) = true)
    ∧ loadContents (.arr [goodItem]) = [goodItem]
    ∧ (loadContents (.arr [goodItem])).map itemOrder = [some (-1)]
    ∧ decide ((loadContents (.arr [goodItem])).map itemOrder
        = (List.range 1).map (fun n => some (n : ℚ))) = false
    ∧ loadContents (.arr [dupItemA, dupItemB]) = [dupItemA, dupItemB]
    ∧ (loadContents (.arr [dupItemA, dupItemB])).map itemOrder = [some 0, some 0] :=
  ⟨fun _ => rfl, rfl, rfl, rfl, rfl, rfl⟩

section StoreLemmas

theorem renumberOrder_length (start : Nat) (l : List Content) :
    (renumberOrder start l).length = l.length := by
  induction l generalizing start with
  | nil => rfl
  | cons c rest ih => simp [renumberOrder, ih]

theorem renumberOrder_stripOrder (start : Nat) (l : List Content) :
    (renumberOrder start l).map stripOrder = l.map stripOrder := by
  induction l generalizing start with
  | nil => rfl
  | cons c rest ih => simp [renumberOrder, stripOrder, ih]

theorem renumberOrder_orders (start : Nat) (l : List Content) :
    (renumberOrder start l).map Content.order
      = (List.range' start l.length).map Int.ofNat := by
  induction l generalizing start with
  | nil => rfl
  | cons c rest ih =>
    simp only [renumberOrder, List.map_cons, List.length_cons, List.range'_succ]
    rw [ih (start + 1)]
    rfl

theorem renumberAll_length (now start : Nat) (l : List Content) :
    (renumberAll now start l).length = l.length := by
  induction l generalizing start with
  | nil => rfl
  | cons c rest ih => simp [renumberAll, ih]

theorem renumberAll_map_id (now start : Nat) (l : List Content) :
    (renumberAll now start l).map Content.id = l.map Content.id := by
  induction l generalizing start with
  | nil => rfl
  | cons c rest ih => simp [renumberAll, ih]

theorem renumberAll_orders (now start : Nat) (l : List Content) :
    (renumberAll now start l).map Content.order
      = (List.range' start l.length).map Int.ofNat := by
  induction l generalizing start with
  | nil => rfl
  | cons c rest ih =>
    simp only [renumberAll, List.map_cons, List.length_cons, List.range'_succ]
    rw [ih (start + 1)]
    rfl

theorem renumberAll_updatedAt (now start : Nat) (l : List Content) :
    ∀ c ∈ renumberAll now start l, c.updatedAt = now := by
  induction l generalizing start with
  | nil => intro c hc; exact absurd hc (List.not_mem_nil c)
  | cons d rest ih =>
    intro c hc
    rcases List.mem_cons.mp hc with heq | hmem
    · rw [heq]
    · exact ih (start + 1) c hmem

theorem renumberAll_order_ge (now start : Nat) (l : List Content) :
    ∀ c ∈ renumberAll now start l, (start : Int) ≤ c.order := by
  induction l generalizing start with
  | nil => intro c hc; exact absurd hc (List.not_mem_nil c)
  | cons d rest ih =>
    intro c hc
    rcases List.mem_cons.mp hc with heq | hmem
    · rw [heq]
    · have := ih (start + 1) c hmem
      have hcast : ((start : Int)) ≤ ((start + 1 : Nat) : Int) := by
        push_cast
        omega
      exact le_trans hcast this

theorem renumberAll_pairwise (now start : Nat) (l : List Content) :
    List.Pairwise (fun a b : Content => a.order ≤ b.order)
      (renumberAll now start l) := by
  induction l generalizing start with
  | nil => exact List.Pairwise.nil
  | cons d rest ih =>
    rw [renumberAll]
    refine List.Pairwise.cons ?_ (ih (start + 1))
    intro c hc
    have h1 := renumberAll_order_ge now (start + 1) rest c hc
    have : ((start : Int)) ≤ ((start + 1 : Nat) : Int) := by
      push_cast
      omega
    exact le_trans this h1

theorem orders_range_getElem (l : List Content)
    (h : l.map Content.order = (List.range l.length).map Int.ofNat)
    (m : Nat) (hm : m < l.length) : (l.get ⟨m, hm⟩).order = Int.ofNat m := by
  have h2 : Option.map Content.order l[m]?
      = Option.map Int.ofNat (List.range l.length)[m]? := by
    have h3 := congrArg (fun t => t[m]?) h
    simpa only [List.getElem?_map] using h3
  rw [List.getElem?_eq_getElem hm,
    List.getElem?_eq_getElem (by rw [List.length_range]; exact hm)] at h2
  simp only [Option.map_some', List.getElem_range] at h2
  exact Option.some.inj h2

theorem sortedSnapshot_eq_of_orders_range (l : List Content)
    (h : l.map Content.order = (List.range l.length).map Int.ofNat) :
    sortedSnapshot l = l := by
  have hpair : List.Pairwise (fun a b : Content => a.order ≤ b.order) l := by
    rw [List.pairwise_iff_getElem]
    intro i j hi hj hij
    show (l.get ⟨i, hi⟩).order ≤ (l.get ⟨j, hj⟩).order
    rw [orders_range_getElem l h i hi, orders_range_getElem l h j hj]
    exact Int.ofNat_le.mpr (Nat.le_of_lt hij)
  exact List.Sorted.insertionSort_eq hpair

theorem sortedSnapshot_renumberAll (now : Nat) (l : List Content) :
    sortedSnapshot (renumberAll now 0 l) = renumberAll now 0 l :=
  List.Sorted.insertionSort_eq (renumberAll_pairwise now 0 l)

end StoreLemmas

/-- C8: `update(id, patch)` merges the patch into the payload fields of the
item whose id matches and stamps only that item's `updatedAt`, leaving its
`id`, `type`, `order` and `createdAt` and every other item entirely
unchanged; when no item has that id the whole collection is unchanged. -/
theorem updateContent_frame (contents : List Content) (id : String)
    (patch : List (String × String)) (now : Nat) :
    ((∀ c ∈ contents, c.id ≠ id) → updateContent contents id patch now = contents)
    ∧ (updateContent contents id patch now).length = contents.length
    ∧ (∀ i : Nat, (updateContent contents id patch now)[i]?
        = (contents[i]?).map (fun c =>
            if c.id = id then
              { c with fields := mergeFields c.fields patch, updatedAt := now }
            else c)) := by
  refine ⟨?_, by simp [updateContent], ?_⟩
  · intro h
    unfold updateContent
    conv_rhs => rw [← List.map_id contents]
    apply List.map_congr_left
    intro a ha
    rw [if_neg (h a ha)]
    rfl
  · intro i
    unfold updateContent
    rw [List.getElem?_map]

/-- Witness for C8: an update whose id matches nothing leaves the store as it
was. -/
theorem updateContent_frame_witness :
    updateContent [exA] "zzz" [("x", "y")] 7 = [exA] :=
  (updateContent_frame [exA] "zzz" [("x", "y")] 7).1 (by decide)

/-- C2 fails on the code: deleting `"a"` from the two-item store
`[exA, exB]` leaves the remaining item entirely unchanged except for its
`order`; its `updatedAt` keeps its old value `6` instead of being bumped. -/
theorem deleteContent_no_updatedAt_bump :
    deleteContent [exA, exB] "a" = [{ exB with order := 0 }]
    ∧ ({ exB with order := 0 } : Content).updatedAt = exB.updatedAt :=
  ⟨by decide, rfl⟩

/-- C2 as amended: `delete(id)` removes every item with the given id and
renumbers the remaining items' `order` to the contiguous range `[0, N-1)`
preserving their relative order, while every other field of the remaining
items — `updatedAt` included — is left unchanged. -/
theorem deleteContent_spec (contents : List Content) (id : String) :
    (deleteContent contents id).length
        = (contents.filter (fun c => c.id ≠ id)).length
    ∧ (deleteContent contents id).map stripOrder
        = (contents.filter (fun c => c.id ≠ id)).map stripOrder
    ∧ (deleteContent contents id).map Content.order
        = (List.range (contents.filter (fun c => c.id ≠ id)).length).map
            Int.ofNat := by
  refine ⟨renumberOrder_length 0 _, renumberOrder_stripOrder 0 _, ?_⟩
  rw [deleteContent, renumberOrder_orders, List.range_eq_range']

/-- C1: every sequence of add, delete and reorder operations applied to the
initially empty store leaves the collection's `order` fields exactly the
contiguous range `[0, N)`, in list position order. -/
theorem runOps_orders_contiguous (ops : List Op) :
    (runOps ops).map Content.order
      = (List.range (runOps ops).length).map Int.ofNat := by
  have hstep : ∀ (l : List Content) (op : Op),
      l.map Content.order = (List.range l.length).map Int.ofNat →
      (applyOp l op).map Content.order
        = (List.range (applyOp l op).length).map Int.ofNat := by
    intro l op h
    cases op with
    | addOp newId type fields now =>
      show (addContent l newId type fields now).map Content.order
        = (List.range (addContent l newId type fields now).length).map Int.ofNat
      rw [addContent, List.map_append, h]
      simp [List.range_succ]
    | deleteOp id =>
      show (deleteContent l id).map Content.order
        = (List.range (deleteContent l id).length).map Int.ofNat
      rw [deleteContent, renumberOrder_orders, renumberOrder_length,
        List.range_eq_range']
    | reorderOp id newOrder now =>
      show (reorderContent l id newOrder now).map Content.order
        = (List.range (reorderContent l id newOrder now).length).map Int.ofNat
      unfold reorderContent
      split
      · exact h
      · split
        · exact h
        · rw [renumberAll_orders, renumberAll_length, List.range_eq_range']
  have hfold : ∀ (ops : List Op) (l : List Content),
      l.map Content.order = (List.range l.length).map Int.ofNat →
      (ops.foldl applyOp l).map Content.order
        = (List.range (ops.foldl applyOp l).length).map Int.ofNat := by
    intro ops
    induction ops with
    | nil => intro l h; exact h
    | cons op rest ih =>
      intro l h
      rw [List.foldl_cons]
      exact ih (applyOp l op) (hstep l op h)
  exact hfold ops [] rfl

section ReorderLemmas

theorem findIdx_id_renumberAll (now start : Nat) (l : List Content) (id : String) :
    (renumberAll now start l).findIdx (fun c => c.id = id)
      = l.findIdx (fun c => c.id = id) := by
  induction l generalizing start with
  | nil => rfl
  | cons c rest ih =>
    simp only [renumberAll, List.findIdx_cons]
    rw [ih (start + 1)]

theorem findIdx_append_cons (T D : List Content) (moved : Content) (id : String)
    (hT : ∀ c ∈ T, ¬ (c.id = id)) (hm : moved.id = id) :
    (T ++ moved :: D).findIdx (fun c => c.id = id) = T.length := by
  induction T with
  | nil => simp [List.findIdx_cons, hm]
  | cons a T ih =>
    have ha : ¬ (a.id = id) := hT a (List.mem_cons_self a T)
    simp only [List.cons_append, List.findIdx_cons, List.length_cons]
    rw [decide_eq_false ha, cond_false,
      ih (fun c hc => hT c (List.mem_cons_of_mem a hc))]

end ReorderLemmas

/-- C3 fails on the code as stated: in the two-item store `[exA, exB]`,
`reorder("a", 5)` places item `"a"` at snapshot position `1`, not at the
claimed clamped position `min(max(5, 0), N) = 2` (with `N = 2` items). -/
theorem reorderContent_clamp_counterexample :
    (sortedSnapshot (reorderContent [exA, exB] "a" 5 9)).findIdx
        (fun c => c.id = "a") = 1
    ∧ (1 : Int) ≠ min (max 5 0) (([exA, exB] : List Content).length : Int) := by
  constructor
  · decide
  · decide

/-- C3 as amended: for a store of `N` items satisfying the order invariant,
with pairwise distinct ids and containing the given id, `reorder(id, k)`
followed by reading the sorted snapshot (which is the new list itself) places
that item at clamped position `min(max(k, 0), N - 1)`, every other item
retains its relative order from the previous snapshot, and every item's
`updatedAt` is bumped to now. -/
theorem reorderContent_clamped_position (contents : List Content) (id : String)
    (k : Int) (now : Nat)
    (hmem : ∃ c ∈ contents, c.id = id)
    (hnodup : (contents.map Content.id).Nodup)
    (hinv : contents.map Content.order = (List.range contents.length).map Int.ofNat) :
    sortedSnapshot (reorderContent contents id k now) = reorderContent contents id k now
    ∧ (reorderContent contents id k now).findIdx (fun c => c.id = id)
        = (min (max k 0) ((contents.length : Int) - 1)).toNat
    ∧ ((reorderContent contents id k now).map Content.id).filter (fun s => s ≠ id)
        = ((sortedSnapshot contents).map Content.id).filter (fun s => s ≠ id)
    ∧ ∀ c ∈ reorderContent contents id k now, c.updatedAt = now := by
  -- locate the item
  have hsome : (contents.findIdx? (fun c => c.id = id)).isSome = true := by
    rw [List.findIdx?_isSome, List.any_eq_true]
    rcases hmem with ⟨c, hc, hcid⟩
    exact ⟨c, hc, by simp [hcid]⟩
  obtain ⟨i, hf⟩ := Option.isSome_iff_exists.mp hsome
  obtain ⟨hi, hfindIdx⟩ := List.findIdx?_eq_some_iff_findIdx_eq.mp hf
  have hidEq : contents[i].id = id := by
    have hw : contents.findIdx (fun c => decide (c.id = id)) < contents.length := by
      rw [hfindIdx]; exact hi
    have hpt := List.findIdx_getElem (w := hw)
    have hj : contents[contents.findIdx (fun c => decide (c.id = id))] = contents[i] := by
      have h5 : contents[contents.findIdx (fun c => decide (c.id = id))]?
          = contents[i]? := by
        rw [hfindIdx]
      rw [List.getElem?_eq_getElem hw, List.getElem?_eq_getElem hi] at h5
      exact Option.some.inj h5
    rw [hj] at hpt
    exact of_decide_eq_true hpt
  have hg : contents[i]? = some contents[i] := List.getElem?_eq_getElem hi
  have hred : reorderContent contents id k now
      = renumberAll now 0
          (spliceIn (spliceOut contents i)
            (clampTarget k (spliceOut contents i).length) contents[i]) := by
    unfold reorderContent
    simp only [hf, hg]
  have hlen_items : (spliceOut contents i).length = contents.length - 1 := by
    unfold spliceOut
    rw [List.length_append, List.length_take, List.length_drop]
    omega
  have ht_le : clampTarget k (spliceOut contents i).length
      ≤ (spliceOut contents i).length := by
    unfold clampTarget
    omega
  -- ids of the other items
  have hdecomp : contents = contents.take i ++ contents[i] :: contents.drop (i + 1) := by
    conv_lhs => rw [← List.take_append_drop i contents,
      ← List.getElem_cons_drop contents i hi]
  have hids : contents.map Content.id
      = (contents.take i).map Content.id
        ++ contents[i].id :: (contents.drop (i + 1)).map Content.id := by
    conv_lhs => rw [hdecomp]
    rw [List.map_append, List.map_cons]
  rw [hids] at hnodup
  rcases List.nodup_append.mp hnodup with ⟨_, hnodup2, hdisj⟩
  have hid_take : contents[i].id ∉ (contents.take i).map Content.id :=
    fun hmem2 => hdisj hmem2 (List.mem_cons_self _ _)
  have hid_drop : contents[i].id ∉ (contents.drop (i + 1)).map Content.id :=
    (List.nodup_cons.mp hnodup2).1
  have hitems_ids : ∀ c ∈ spliceOut contents i, ¬ (c.id = id) := by
    intro c hc hceq
    have hcid : c.id = contents[i].id := by rw [hceq, hidEq]
    unfold spliceOut at hc
    rcases List.mem_append.mp hc with hc | hc
    · exact hid_take (List.mem_map.mpr ⟨c, hc, hcid⟩)
    · exact hid_drop (List.mem_map.mpr ⟨c, hc, hcid⟩)
  have hT_ids : ∀ c ∈ (spliceOut contents i).take
      (clampTarget k (spliceOut contents i).length), ¬ (c.id = id) :=
    fun c hc => hitems_ids c (List.take_subset _ _ hc)
  refine ⟨?_, ?_, ?_, ?_⟩
  · rw [hred]
    exact sortedSnapshot_renumberAll now _
  · rw [hred]
    unfold spliceIn
    rw [findIdx_id_renumberAll, findIdx_append_cons _ _ _ _ hT_ids hidEq,
      List.length_take]
    unfold clampTarget
    omega
  · rw [hred]
    unfold spliceIn
    rw [renumberAll_map_id, List.map_append, List.map_cons, List.filter_append,
      List.filter_cons]
    rw [sortedSnapshot_eq_of_orders_range contents hinv, hids,
      List.filter_append, List.filter_cons]
    have hfid : (decide (¬ contents[i].id = id)) = false := by
      simp [hidEq]
    rw [hidEq] at hfid
    simp only [hidEq, hfid, Bool.false_eq_true, if_false]
    rw [← List.filter_append, ← List.filter_append, ← List.map_append,
      ← List.map_append, List.take_append_drop]
    rfl
  · rw [hred]
    exact renumberAll_updatedAt now 0 _

/-- Witness for C3's amended statement on a concrete two-item store. -/
theorem reorderContent_clamped_position_witness :
    (reorderContent [exA, exB] "a" 5 9).findIdx (fun c => c.id = "a")
      = (min (max 5 0) ((([exA, exB] : List Content).length : Int) - 1)).toNat :=
  (reorderContent_clamped_position [exA, exB] "a" 5 9
    ⟨exA, List.mem_cons_self _ _, rfl⟩ (by decide) (by decide)).2.1

end WinMix
